import Mathlib

/-!
Verification of the emissions-dashboard core pipeline (app.py).

The development shallowly embeds the three core functions of the source,
`get_emission_data`, `compute_average` and `interpret_data`, over an
association-list model of Python dictionaries.  Python dict assignment
overwrites an existing key in place and appends a fresh key at the end;
`dictSet` below mirrors that exactly.  Numeric emission values are modelled
as rationals (the source `statistics.mean` computes the exact rational mean
before converting back, so the rational model is faithful).  A Python
exception escaping a function is modelled as `Except.error ()`.
-/

namespace EmissionsApp

/-- Python `d.get(key)`: the value stored at `key`, or `none`. -/
def dictGet {α β : Type} [DecidableEq α] : List (α × β) → α → Option β
  | [], _ => none
  | (k, v) :: rest, key => if k = key then some v else dictGet rest key

/-- Python `d.get(key, dflt)`. -/
def dictGetD {α β : Type} [DecidableEq α] (d : List (α × β)) (key : α) (dflt : β) : β :=
  (dictGet d key).getD dflt

/-- Python `d[key] = v`: overwrite in place when the key is present,
append at the end when it is fresh (insertion order is preserved). -/
def dictSet {α β : Type} [DecidableEq α] : List (α × β) → α → β → List (α × β)
  | [], k, v => [(k, v)]
  | (k0, v0) :: rest, k, v =>
      if k0 = k then (k0, v) :: rest else (k0, v0) :: dictSet rest k v

/-- A JSON value stored as an emissions figure: a number, or JSON null
(Python `None`).  `item.get("EmissieBroeikasgassen_1", 0.0)` yields `None`
when the field is present with a null value. -/
inductive JVal : Type
  | num (q : ℚ)
  | null
deriving DecidableEq, Repr

/-- One decoded record of a provider payload with well-typed fields,
restricted by the `$select` clause to the two fields the source reads.
`klimaatsector = none` models a record in which the field is absent or null
(Python `item.get` yields `None` for both). `emissie = none` models an
absent value field; `some JVal.null` a field present with a null value.
A decoded object whose `Klimaatsector` value is neither absent, null nor a
string is not an `SrcRecord`; it is modelled at the item level, see
`RawItem.badKey`. -/
structure SrcRecord : Type where
  klimaatsector : Option String
  emissie : Option JVal
deriving DecidableEq, Repr

/-- An element of the decoded `value` array.  `obj r` is a JSON object whose
`Klimaatsector` field is absent, null or a string.  `badKey` is a JSON
object whose `Klimaatsector` value is an unhashable JSON array or object:
the sentinel comparison is false for such a value, and
`sectors.get(sector_key, sector_key)` then raises `TypeError`, outside the
guarded block of `get_emission_data`.  `nonObj` is any JSON value that is
not an object: calling `.get` on it raises `AttributeError`, also outside
the guarded block.  A JSON object whose `Klimaatsector` is a hashable
non-string value (a number or a boolean) does not raise in the source - it
falls through like an unknown code, keyed by the raw value - but such keys
lie outside the key type of this model, and no claim quantifies over them. -/
inductive RawItem : Type
  | obj (r : SrcRecord)
  | badKey
  | nonObj
deriving DecidableEq, Repr

/-- Outcome of one provider query.  `failure` is any exception raised inside
the guarded block of the source (unreachable host, non-2xx status via
`raise_for_status`, a body that fails JSON decoding, or a decoded body on
which `.get("value", [])` fails); the source replaces it by an empty record
list.  `ok items` is a decoded `value` array. -/
inductive Response : Type
  | failure
  | ok (items : List RawItem)
deriving DecidableEq, Repr

/-- The record list the per-category loop iterates over: an empty list when
the guarded block failed. -/
def respItems : Response → List RawItem
  | .failure => []
  | .ok items => items

/-- A provider behaviour: the response produced for a period and a category
key (the two query parameters the source varies). -/
abbrev Provider := String → String → Response

/-- Sector keys of the fetch result.  `none` is the Python `None` key that
arises when a record has no usable `Klimaatsector` field. -/
abbrev SKey := Option String

/-- The mapping built by `get_emission_data`: sector key to category name to
stored JSON value. -/
abbrev FetchResult := List (SKey × List (String × JVal))

/-- The `categories` table of the source: category name and OData key. -/
def categories : List (String × String) :=
  [("total", "T001372"), ("CO2", "A044109"), ("other", "A050122")]

/-- The `sectors` table of the source: sector code to descriptive name. -/
def sectors : List (String × String) :=
  [("A050123", "Industrie"),
   ("A050124", "Elektriciteit"),
   ("A050125", "Mobiliteit"),
   ("A050126", "Landbouw"),
   ("A050127", "Gebouwde omgeving"),
   ("A052138", "Landgebruik")]

/-- The code of the whole-country rollup row that the source discards. -/
def sentinel : String := "T001616"

/-- Source `sectors.get(sector_key, sector_key)` for a string code. -/
def nameFor (code : String) : String :=
  (dictGet sectors code).getD code

/-- Resolution of the raw `Klimaatsector` field to the key used in the
result mapping: Python `sectors.get(None, None)` is `None`. -/
def resolveName : Option String → SKey
  | none => none
  | some code => some (nameFor code)

/-- The body of the record loop of `get_emission_data` for one item:
skip the rollup row, resolve the sector name, store the value (default
`0.0` when the field is absent).  A non-object item raises, and so does an
object whose sector code is unhashable. -/
def processItem (cat : String) (results : FetchResult) : RawItem → Except Unit FetchResult
  | .nonObj => .error ()
  | .badKey => .error ()
  | .obj r =>
      if r.klimaatsector = some sentinel then .ok results
      else
        let name := resolveName r.klimaatsector
        .ok (dictSet results name
              (dictSet (dictGetD results name []) cat (r.emissie.getD (JVal.num 0))))

/-- The record loop of `get_emission_data` over one decoded payload. -/
def processItems (cat : String) : FetchResult → List RawItem → Except Unit FetchResult
  | results, [] => .ok results
  | results, it :: rest =>
      match processItem cat results it with
      | .error e => .error e
      | .ok r => processItems cat r rest

/-- The category loop of `get_emission_data`. -/
def fetchLoop (provider : Provider) (period : String) :
    FetchResult → List (String × String) → Except Unit FetchResult
  | results, [] => .ok results
  | results, (catName, catKey) :: rest =>
      match processItems catName results (respItems (provider period catKey)) with
      | .error e => .error e
      | .ok r => fetchLoop provider period r rest

/-- Source `get_emission_data(period)`, parameterised by the behaviour of
the external provider.  `Except.error ()` models an exception escaping the
function. -/
def get_emission_data (provider : Provider) (period : String) : Except Unit FetchResult :=
  fetchLoop provider period [] categories

/-- A sector-keyed emissions mapping with numeric values, the shape consumed
by `compute_average` and `interpret_data`. -/
abbrev SectorEmissions := List (String × List (String × ℚ))

/-- Source `compute_average(data, category)`: the mean of the per-sector
values (absent category read as `0.0`), and `0.0` on an empty mapping. -/
def compute_average (data : SectorEmissions) (category : String) : ℚ :=
  let values := data.map fun p => dictGetD p.2 category 0
  if values = [] then 0 else values.sum / (values.length : ℚ)

/-- Python `f"{x:.1f}"` on the exact rational: round to one decimal,
ties to even. -/
def roundHalfEven (q : ℚ) : ℤ :=
  let f : ℤ := Int.fdiv q.num q.den
  let r : ℚ := q - (f : ℚ)
  if r < 1/2 then f
  else if 1/2 < r then f + 1
  else if f % 2 = 0 then f else f + 1

/-- Rendering of a rational to one decimal place, Python `f"{x:.1f}"`. -/
def pyFormat1 (q : ℚ) : String :=
  let n : ℤ := roundHalfEven (q * 10)
  let sgn := if n < 0 then "-" else ""
  let m : ℕ := n.natAbs
  sgn ++ toString (m / 10) ++ "." ++ toString (m % 10)

/-- The action-item text built by `interpret_data`; the 17 spaces before
`installaties` come from the backslash line continuation inside the source
string literal. -/
def actionText (sector : String) (total baseline : ℚ) : String :=
  "De sector " ++ sector ++ " stoot " ++ pyFormat1 total ++
    " Mt CO₂-equivalent uit, wat boven " ++
    "het gemiddelde van " ++ pyFormat1 baseline ++
    " Mt ligt. Controleer grote                 installaties en voer aanvullende reductiemaatregelen uit."

/-- The loop of `interpret_data`.  When a sector qualifies, the f-string
indexes `averages["total"]` directly; a missing key raises `KeyError`,
modelled as `Except.error ()`. -/
def interpretLoop (averages : List (String × ℚ)) :
    List (String × String) → SectorEmissions → Except Unit (List (String × String))
  | actions, [] => .ok actions
  | actions, (sector, vals) :: rest =>
      let total := dictGetD vals "total" 0
      if total > dictGetD averages "total" 0 then
        match dictGet averages "total" with
        | none => .error ()
        | some b => interpretLoop averages (dictSet actions sector (actionText sector total b)) rest
      else interpretLoop averages actions rest

/-- Source `interpret_data(data, averages)`. -/
def interpret_data (data : SectorEmissions) (averages : List (String × ℚ)) :
    Except Unit (List (String × String)) :=
  interpretLoop averages [] data

/-! ### Association-list dictionary lemmas -/

theorem dictGet_dictSet {α β : Type} [DecidableEq α] (d : List (α × β)) (k q : α) (v : β) :
    dictGet (dictSet d k v) q = if q = k then some v else dictGet d q := by
  induction d with
  | nil =>
      simp only [dictSet, dictGet]
      by_cases h : q = k
      · subst h; simp
      · rw [if_neg (fun hh => h hh.symm), if_neg h]
  | cons p rest ih =>
      obtain ⟨k0, v0⟩ := p
      by_cases h0 : k0 = k
      · subst h0
        simp only [dictSet, if_pos rfl, dictGet]
        by_cases h : q = k0
        · subst h; simp
        · have hk : ¬ k0 = q := fun hh => h hh.symm
          rw [if_neg hk, if_neg h, if_neg hk]
      · simp only [dictSet, if_neg h0, dictGet]
        by_cases h1 : k0 = q
        · subst h1
          have hqk : ¬ k0 = k := h0
          rw [if_pos rfl, if_neg hqk, if_pos rfl]
        · rw [if_neg h1, ih, if_neg h1]

theorem mem_dictSet {α β : Type} [DecidableEq α] (d : List (α × β)) (k a : α) (v b : β)
    (h : (a, b) ∈ dictSet d k v) : (a, b) ∈ d ∨ (a = k ∧ b = v) := by
  induction d with
  | nil => simp [dictSet] at h; exact Or.inr h
  | cons p rest ih =>
      obtain ⟨k0, v0⟩ := p
      by_cases h0 : k0 = k
      · subst h0
        simp [dictSet] at h
        rcases h with ⟨ha, hb⟩ | h
        · exact Or.inr ⟨ha, hb⟩
        · exact Or.inl (List.mem_cons_of_mem _ h)
      · simp [dictSet, h0] at h
        rcases h with ⟨ha, hb⟩ | h
        · exact Or.inl (by simp [ha, hb])
        · rcases ih h with h | h
          · exact Or.inl (List.mem_cons_of_mem _ h)
          · exact Or.inr h

theorem dictGet_eq_none {α β : Type} [DecidableEq α] (d : List (α × β)) (k : α) :
    dictGet d k = none ↔ k ∉ d.map Prod.fst := by
  induction d with
  | nil => simp [dictGet]
  | cons p rest ih =>
      obtain ⟨k0, v0⟩ := p
      by_cases h : k0 = k
      · subst h; simp [dictGet]
      · have h2 : ¬ k = k0 := fun hh => h hh.symm
        simp [dictGet, h, ih, h2]

theorem dictGet_mem {α β : Type} [DecidableEq α] (d : List (α × β)) (k : α) (v : β)
    (h : dictGet d k = some v) : (k, v) ∈ d := by
  induction d with
  | nil => simp [dictGet] at h
  | cons p rest ih =>
      obtain ⟨k0, v0⟩ := p
      by_cases h0 : k0 = k
      · subst h0
        simp only [dictGet, if_pos rfl] at h
        injection h with h
        subst h
        exact List.mem_cons_self _ _
      · simp only [dictGet, if_neg h0] at h
        exact List.mem_cons_of_mem _ (ih h)

theorem dictGet_of_mem_nodup {α β : Type} [DecidableEq α] (d : List (α × β)) (k : α) (v : β)
    (hnd : (d.map Prod.fst).Nodup) (h : (k, v) ∈ d) : dictGet d k = some v := by
  induction d with
  | nil => simp at h
  | cons p rest ih =>
      obtain ⟨k0, v0⟩ := p
      rw [List.map_cons, List.nodup_cons] at hnd
      simp only [List.mem_cons, Prod.mk.injEq] at h
      rcases h with ⟨hk, hv⟩ | h
      · simp [dictGet, hk.symm, hv]
      · have hk0 : k0 ≠ k := by
          intro hk0
          subst hk0
          exact hnd.1 (List.mem_map.mpr ⟨(k0, v), h, rfl⟩)
        simp [dictGet, hk0, ih hnd.2 h]

theorem dictSet_fresh {α β : Type} [DecidableEq α] (d : List (α × β)) (k : α) (v : β)
    (h : k ∉ d.map Prod.fst) : dictSet d k v = d ++ [(k, v)] := by
  induction d with
  | nil => simp [dictSet]
  | cons p rest ih =>
      obtain ⟨k0, v0⟩ := p
      simp at h
      have h0 : k0 ≠ k := fun hh => h.1 hh.symm
      simp [dictSet, h0, ih (by simpa using h.2)]

theorem dictSet_keys {α β : Type} [DecidableEq α] (d : List (α × β)) (k : α) (v : β) :
    (dictSet d k v).map Prod.fst =
      if k ∈ d.map Prod.fst then d.map Prod.fst else d.map Prod.fst ++ [k] := by
  induction d with
  | nil => simp [dictSet]
  | cons p rest ih =>
      obtain ⟨k0, v0⟩ := p
      by_cases h0 : k0 = k
      · subst h0
        simp [dictSet]
      · have h0k : ¬ k = k0 := fun hh => h0 hh.symm
        by_cases hm : k ∈ rest.map Prod.fst <;>
          simp [dictSet, h0, ih, hm, h0k]

/-! ### Fetch-pipeline observation functions -/

/-- The value stored for sector `name` and category `cat` in a fetch result. -/
def cell (r : FetchResult) (name : SKey) (cat : String) : Option JVal :=
  (dictGet r name).bind fun inner => dictGet inner cat

/-- Whether processing a raw item writes to the row of sector `name`:
it must be an object, not the rollup row, and resolve to `name`. -/
def touches : RawItem → SKey → Bool
  | .nonObj, _ => false
  | .badKey, _ => false
  | .obj r, name =>
      if r.klimaatsector = some sentinel then false
      else if resolveName r.klimaatsector = name then true else false

/-- The value an object item stores (absent field defaults to `0.0`). -/
def recVal : RawItem → Option JVal
  | .nonObj => none
  | .badKey => none
  | .obj r => some (r.emissie.getD (JVal.num 0))

/-- The value written by the last item of the list that writes to sector
`name`, scanning from the back. -/
def lastWrite (name : SKey) : List RawItem → Option JVal
  | [] => none
  | it :: rest =>
      match lastWrite name rest with
      | some v => some v
      | none => if touches it name then recVal it else none

theorem recVal_isSome_of_touches (it : RawItem) (name : SKey)
    (h : touches it name = true) : ∃ v, recVal it = some v := by
  cases it with
  | nonObj => simp [touches] at h
  | badKey => simp [touches] at h
  | obj r => exact ⟨r.emissie.getD (JVal.num 0), rfl⟩

/-- Effect of processing a single item on the cells of the result: a touched
row gets the item value at column `cat`, every other cell is unchanged. -/
theorem cell_processItem (cat : String) (acc : FetchResult) (it : RawItem)
    (out : FetchResult) (hok : processItem cat acc it = .ok out) (name : SKey) :
    (touches it name = true → cell out name cat = recVal it) ∧
    (∀ c, touches it name = false ∨ c ≠ cat → cell out name c = cell acc name c) := by
  cases it with
  | nonObj =>
      simp only [processItem] at hok
      exact absurd hok (by simp)
  | badKey =>
      simp only [processItem] at hok
      exact absurd hok (by simp)
  | obj r =>
      simp only [processItem] at hok
      by_cases hs : r.klimaatsector = some sentinel
      · rw [if_pos hs] at hok
        injection hok with hok
        subst hok
        refine ⟨(fun ht => ?_), (fun c _ => rfl)⟩
        simp [touches, hs] at ht
      · rw [if_neg hs] at hok
        injection hok with hok
        subst hok
        by_cases hn : resolveName r.klimaatsector = name
        · have ht : touches (RawItem.obj r) name = true := by
            simp [touches, hs, hn]
          constructor
          · intro _
            simp only [cell]
            rw [dictGet_dictSet, if_pos hn.symm]
            simp only [Option.some_bind]
            rw [dictGet_dictSet, if_pos rfl]
            rfl
          · intro c hc
            rcases hc with hc | hc
            · rw [ht] at hc; cases hc
            · simp only [cell]
              rw [dictGet_dictSet, if_pos hn.symm]
              simp only [Option.some_bind]
              rw [dictGet_dictSet, if_neg hc, ← hn]
              cases hg : dictGet acc (resolveName r.klimaatsector) with
              | none =>
                  simp only [hg, Option.none_bind]
                  rw [dictGetD, hg]
                  rfl
              | some inner =>
                  simp only [hg, Option.some_bind]
                  rw [dictGetD, hg]
                  rfl
        · have ht : touches (RawItem.obj r) name = false := by
            simp [touches, hs, hn]
          have hpres : ∀ c, cell (dictSet acc (resolveName r.klimaatsector)
              (dictSet (dictGetD acc (resolveName r.klimaatsector) []) cat
                (r.emissie.getD (JVal.num 0)))) name c = cell acc name c := by
            intro c
            simp only [cell]
            rw [dictGet_dictSet, if_neg (fun hh => hn hh.symm)]
          exact ⟨(fun h => by rw [ht] at h; cases h), (fun c _ => hpres c)⟩

/-- After one category pass, the cell at that category holds the value of
the last item writing to the row, or is unchanged when no item does. -/
theorem cell_processItems (cat : String) (acc : FetchResult) (items : List RawItem)
    (out : FetchResult) (hok : processItems cat acc items = .ok out) (name : SKey) :
    cell out name cat =
      match lastWrite name items with
      | some v => some v
      | none => cell acc name cat := by
  induction items generalizing acc with
  | nil =>
      simp only [processItems] at hok
      injection hok with hok
      subst hok
      rfl
  | cons it rest ih =>
      simp only [processItems] at hok
      cases hmid : processItem cat acc it with
      | error e => rw [hmid] at hok; cases hok
      | ok mid =>
          rw [hmid] at hok
          have hcell := ih mid hok
          cases hl : lastWrite name rest with
          | some v => simp only [lastWrite, hl]; rw [hcell, hl]
          | none =>
              rw [hcell, hl]
              simp only [lastWrite, hl]
              cases ht : touches it name with
              | true =>
                  obtain ⟨v, hv⟩ := recVal_isSome_of_touches it name ht
                  rw [if_pos rfl]
                  rw [(cell_processItem cat acc it mid hmid name).1 ht]
                  simp [hv]
              | false =>
                  rw [if_neg (by simp [ht])]
                  exact (cell_processItem cat acc it mid hmid name).2 cat (Or.inl ht)

/-- A category pass never changes cells of a different category. -/
theorem cell_processItems_other (cat : String) (acc : FetchResult)
    (items : List RawItem) (out : FetchResult)
    (hok : processItems cat acc items = .ok out) (name : SKey) (c : String)
    (hc : c ≠ cat) : cell out name c = cell acc name c := by
  induction items generalizing acc with
  | nil =>
      simp only [processItems] at hok
      injection hok with hok
      subst hok
      rfl
  | cons it rest ih =>
      simp only [processItems] at hok
      cases hmid : processItem cat acc it with
      | error e => rw [hmid] at hok; cases hok
      | ok mid =>
          rw [hmid] at hok
          rw [ih mid hok]
          exact (cell_processItem cat acc it mid hmid name).2 c (Or.inr hc)

/-! ### Dictionary-shape invariant: keys are unique at both levels -/

/-- No duplicate sector keys, and no duplicate category keys inside any
sector row (the defining invariant of a dictionary of dictionaries). -/
def nodupKeys (r : FetchResult) : Prop :=
  (r.map Prod.fst).Nodup ∧ ∀ e ∈ r, (e.2.map Prod.fst).Nodup

theorem nodup_dictSet {α β : Type} [DecidableEq α] (d : List (α × β)) (k : α) (v : β)
    (h : (d.map Prod.fst).Nodup) : ((dictSet d k v).map Prod.fst).Nodup := by
  rw [dictSet_keys]
  by_cases hm : k ∈ d.map Prod.fst
  · rw [if_pos hm]; exact h
  · rw [if_neg hm]
    simp [List.nodup_append, h, hm]

theorem nodupKeys_processItem (cat : String) (acc : FetchResult) (it : RawItem)
    (out : FetchResult) (hok : processItem cat acc it = .ok out)
    (hnd : nodupKeys acc) : nodupKeys out := by
  cases it with
  | nonObj =>
      simp only [processItem] at hok
      exact absurd hok (by simp)
  | badKey =>
      simp only [processItem] at hok
      exact absurd hok (by simp)
  | obj r =>
      simp only [processItem] at hok
      by_cases hs : r.klimaatsector = some sentinel
      · rw [if_pos hs] at hok
        injection hok with hok
        subst hok
        exact hnd
      · rw [if_neg hs] at hok
        injection hok with hok
        subst hok
        constructor
        · exact nodup_dictSet _ _ _ hnd.1
        · intro e he
          rcases mem_dictSet _ _ _ _ _ he with he | ⟨he1, he2⟩
          · exact hnd.2 e he
          · have hinner : ((dictGetD acc (resolveName r.klimaatsector) []).map Prod.fst).Nodup := by
              rw [dictGetD]
              cases hg : dictGet acc (resolveName r.klimaatsector) with
              | none => simp
              | some inner =>
                  simp only [Option.getD_some]
                  exact hnd.2 _ (dictGet_mem _ _ _ hg)
            rw [he2]
            exact nodup_dictSet _ _ _ hinner

theorem nodupKeys_processItems (cat : String) (acc : FetchResult)
    (items : List RawItem) (out : FetchResult)
    (hok : processItems cat acc items = .ok out) (hnd : nodupKeys acc) :
    nodupKeys out := by
  induction items generalizing acc with
  | nil =>
      simp only [processItems] at hok
      injection hok with hok
      subst hok
      exact hnd
  | cons it rest ih =>
      simp only [processItems] at hok
      cases hmid : processItem cat acc it with
      | error e => rw [hmid] at hok; cases hok
      | ok mid =>
          rw [hmid] at hok
          exact ih mid hok (nodupKeys_processItem cat acc it mid hmid hnd)

theorem nodupKeys_fetchLoop (provider : Provider) (period : String)
    (acc : FetchResult) (cats : List (String × String)) (out : FetchResult)
    (hok : fetchLoop provider period acc cats = .ok out) (hnd : nodupKeys acc) :
    nodupKeys out := by
  induction cats generalizing acc with
  | nil =>
      simp only [fetchLoop] at hok
      injection hok with hok
      subst hok
      exact hnd
  | cons c rest ih =>
      obtain ⟨cn, ck⟩ := c
      simp only [fetchLoop] at hok
      cases hmid : processItems cn acc (respItems (provider period ck)) with
      | error e => rw [hmid] at hok; cases hok
      | ok mid =>
          rw [hmid] at hok
          exact ih mid hok (nodupKeys_processItems _ _ _ _ hmid hnd)

/-! ### Totality on well-formed payloads, and failure equals emptiness -/

/-- A response the source handles without an escaping exception: either the
guarded block failed (so the loop sees an empty list), or every decoded item
is a JSON object whose fields are well typed - neither a non-object item
(`AttributeError` at `item.get`) nor an object with an unhashable sector
code (`TypeError` at `sectors.get`). -/
def goodResponse : Response → Prop
  | .failure => True
  | .ok items => ∀ it ∈ items, ∃ rcd, it = RawItem.obj rcd

theorem processItems_ok_of_good (cat : String) (acc : FetchResult)
    (items : List RawItem) (h : ∀ it ∈ items, ∃ rcd, it = RawItem.obj rcd) :
    ∃ out, processItems cat acc items = .ok out := by
  induction items generalizing acc with
  | nil => exact ⟨acc, rfl⟩
  | cons it rest ih =>
      obtain ⟨rcd, rfl⟩ := h it (List.mem_cons_self _ _)
      have hmid : ∃ mid, processItem cat acc (RawItem.obj rcd) = .ok mid := by
        simp only [processItem]
        by_cases hs : rcd.klimaatsector = some sentinel
        · rw [if_pos hs]; exact ⟨acc, rfl⟩
        · rw [if_neg hs]; exact ⟨_, rfl⟩
      obtain ⟨mid, hmid⟩ := hmid
      obtain ⟨out, hout⟩ := ih mid (fun x hx => h x (List.mem_cons_of_mem _ hx))
      refine ⟨out, ?_⟩
      simp only [processItems, hmid, hout]

theorem fetchLoop_ok_of_good (provider : Provider) (period : String)
    (acc : FetchResult) (cats : List (String × String))
    (h : ∀ c ∈ cats, goodResponse (provider period c.2)) :
    ∃ out, fetchLoop provider period acc cats = .ok out := by
  induction cats generalizing acc with
  | nil => exact ⟨acc, rfl⟩
  | cons c rest ih =>
      obtain ⟨cn, ck⟩ := c
      have hgood : ∀ it ∈ respItems (provider period ck), ∃ rcd, it = RawItem.obj rcd := by
        have hc := h (cn, ck) (List.mem_cons_self _ _)
        cases hr : provider period ck with
        | failure => simp [respItems]
        | ok items =>
            rw [goodResponse.eq_def, hr] at hc
            simpa [respItems] using hc
      obtain ⟨mid, hmid⟩ := processItems_ok_of_good cn acc _ hgood
      obtain ⟨out, hout⟩ := ih mid (fun x hx => h x (List.mem_cons_of_mem _ hx))
      refine ⟨out, ?_⟩
      simp only [fetchLoop, hmid, hout]

/-- The category loop only looks at the record list a response decodes to,
so a provider failure behaves exactly like an empty payload. -/
theorem fetchLoop_respItems_congr (p1 p2 : Provider) (period : String)
    (acc : FetchResult) (cats : List (String × String))
    (h : ∀ c ∈ cats, respItems (p1 period c.2) = respItems (p2 period c.2)) :
    fetchLoop p1 period acc cats = fetchLoop p2 period acc cats := by
  induction cats generalizing acc with
  | nil => rfl
  | cons c rest ih =>
      obtain ⟨cn, ck⟩ := c
      simp only [fetchLoop]
      rw [h (cn, ck) (List.mem_cons_self _ _)]
      cases processItems cn acc (respItems (p2 period ck)) with
      | error e => rfl
      | ok mid => exact ih mid (fun x hx => h x (List.mem_cons_of_mem _ hx))

/-! ### Lemmas about the recommendation loop -/

/-- Every entry of the output of the loop is either carried over from the
accumulator or comes from a qualifying sector of the data, with the exact
action text. -/
theorem interpretLoop_mem (averages : List (String × ℚ)) (data : SectorEmissions)
    (acc out : List (String × String))
    (hok : interpretLoop averages acc data = .ok out) (s m : String)
    (hm : (s, m) ∈ out) :
    (s, m) ∈ acc ∨ ∃ vals b, (s, vals) ∈ data ∧ dictGet averages "total" = some b ∧
      dictGetD vals "total" 0 > dictGetD averages "total" 0 ∧
      m = actionText s (dictGetD vals "total" 0) b := by
  induction data generalizing acc with
  | nil =>
      simp only [interpretLoop] at hok
      injection hok with hok
      subst hok
      exact Or.inl hm
  | cons p rest ih =>
      obtain ⟨sector, vals⟩ := p
      simp only [interpretLoop] at hok
      by_cases hq : dictGetD vals "total" 0 > dictGetD averages "total" 0
      · rw [if_pos hq] at hok
        cases hb : dictGet averages "total" with
        | none => rw [hb] at hok; cases hok
        | some b =>
            rw [hb] at hok
            replace hok : interpretLoop averages
                (dictSet acc sector (actionText sector (dictGetD vals "total" 0) b)) rest
                = Except.ok out := hok
            rcases ih _ hok with hacc | ⟨vals2, b2, hmem, hb2, hq2, hm2⟩
            · rcases mem_dictSet _ _ _ _ _ hacc with hacc | ⟨hs, hm2⟩
              · exact Or.inl hacc
              · subst hs
                exact Or.inr ⟨vals, b, List.mem_cons_self _ _, rfl, hq, hm2⟩
            · exact Or.inr ⟨vals2, b2, List.mem_cons_of_mem _ hmem, hb ▸ hb2, hq2, hm2⟩
      · rw [if_neg hq] at hok
        rcases ih _ hok with hacc | ⟨vals2, b2, hmem, hb2, hq2, hm2⟩
        · exact Or.inl hacc
        · exact Or.inr ⟨vals2, b2, List.mem_cons_of_mem _ hmem, hb2, hq2, hm2⟩

/-- The keys of the loop output: the accumulator keys followed, in data
order, by the keys of the qualifying sectors. -/
theorem interpretLoop_keys (averages : List (String × ℚ)) (data : SectorEmissions)
    (acc out : List (String × String))
    (hnd : (data.map Prod.fst).Nodup)
    (hfresh : ∀ s ∈ acc.map Prod.fst, s ∉ data.map Prod.fst)
    (hok : interpretLoop averages acc data = .ok out) :
    out.map Prod.fst = acc.map Prod.fst ++
      (data.filter fun p =>
        decide (dictGetD p.2 "total" 0 > dictGetD averages "total" 0)).map Prod.fst := by
  induction data generalizing acc with
  | nil =>
      simp only [interpretLoop] at hok
      injection hok with hok
      subst hok
      simp
  | cons p rest ih =>
      obtain ⟨sector, vals⟩ := p
      rw [List.map_cons, List.nodup_cons] at hnd
      simp only [interpretLoop] at hok
      by_cases hq : dictGetD vals "total" 0 > dictGetD averages "total" 0
      · rw [if_pos hq] at hok
        cases hb : dictGet averages "total" with
        | none => rw [hb] at hok; cases hok
        | some b =>
            rw [hb] at hok
            replace hok : interpretLoop averages
                (dictSet acc sector (actionText sector (dictGetD vals "total" 0) b)) rest
                = Except.ok out := hok
            have hsec : sector ∉ acc.map Prod.fst := by
              intro hmem
              exact hfresh sector hmem (by simp)
            have hset : dictSet acc sector (actionText sector (dictGetD vals "total" 0) b)
                = acc ++ [(sector, actionText sector (dictGetD vals "total" 0) b)] :=
              dictSet_fresh _ _ _ hsec
            have hfresh2 : ∀ s ∈ (acc ++
                [(sector, actionText sector (dictGetD vals "total" 0) b)]).map Prod.fst,
                s ∉ rest.map Prod.fst := by
              intro s hs
              simp only [List.map_append, List.mem_append, List.map_cons,
                List.mem_cons] at hs
              rcases hs with hs | hs
              · intro hcon
                exact hfresh s hs (by simp [hcon])
              · simp at hs
                subst hs
                exact hnd.1
            rw [hset] at hok
            rw [ih _ hnd.2 hfresh2 hok]
            simp [hq]
      · rw [if_neg hq] at hok
        have hfresh2 : ∀ s ∈ acc.map Prod.fst, s ∉ rest.map Prod.fst := by
          intro s hs hcon
          exact hfresh s hs (by simp [hcon])
        rw [ih _ hnd.2 hfresh2 hok]
        simp [hq]

/-- When the averages mapping has a total entry the loop always returns. -/
theorem interpretLoop_ok (averages : List (String × ℚ)) (data : SectorEmissions)
    (acc : List (String × String)) (b : ℚ)
    (hb : dictGet averages "total" = some b) :
    ∃ out, interpretLoop averages acc data = .ok out := by
  induction data generalizing acc with
  | nil => exact ⟨acc, rfl⟩
  | cons p rest ih =>
      obtain ⟨sector, vals⟩ := p
      simp only [interpretLoop]
      by_cases hq : dictGetD vals "total" 0 > dictGetD averages "total" 0
      · rw [if_pos hq, hb]
        exact ih _
      · rw [if_neg hq]
        exact ih _

/-- When the averages mapping lacks a total entry, the loop raises exactly
when a sector qualifies against the defaulted baseline `0.0`, and returns
the untouched accumulator otherwise. -/
theorem interpretLoop_missing_total (averages : List (String × ℚ))
    (data : SectorEmissions) (acc : List (String × String))
    (hb : dictGet averages "total" = none) :
    (interpretLoop averages acc data = .error () ↔
      ∃ p ∈ data, dictGetD p.2 "total" 0 > 0) ∧
    ((∀ p ∈ data, ¬ dictGetD p.2 "total" 0 > 0) →
      interpretLoop averages acc data = .ok acc) := by
  have hb0 : dictGetD averages "total" 0 = 0 := by rw [dictGetD, hb]; rfl
  induction data generalizing acc with
  | nil =>
      constructor
      · simp [interpretLoop]
      · intro _; rfl
  | cons p rest ih =>
      obtain ⟨sector, vals⟩ := p
      constructor
      · simp only [interpretLoop, hb0]
        by_cases hq : dictGetD vals "total" 0 > 0
        · rw [if_pos hq, hb]
          constructor
          · intro
            exact ⟨(sector, vals), List.mem_cons_self _ _, hq⟩
          · intro
            rfl
        · rw [if_neg hq]
          rw [(ih acc).1]
          constructor
          · rintro ⟨q, hqmem, hqq⟩
            exact ⟨q, List.mem_cons_of_mem _ hqmem, hqq⟩
          · rintro ⟨q, hqmem, hqq⟩
            rcases List.mem_cons.mp hqmem with hq2 | hq2
            · subst hq2; exact absurd hqq hq
            · exact ⟨q, hq2, hqq⟩
      · intro hall
        have hq : ¬ dictGetD vals "total" 0 > 0 :=
          hall (sector, vals) (List.mem_cons_self _ _)
        simp only [interpretLoop, hb0]
        rw [if_neg hq]
        exact (ih acc).2 (fun q hq2 => hall q (List.mem_cons_of_mem _ hq2))

/-! ### The rollup sentinel never becomes a key -/

theorem nameFor_mem_or_self (code : String) :
    nameFor code = code ∨ nameFor code ∈ sectors.map Prod.snd := by
  rw [nameFor]
  cases hg : dictGet sectors code with
  | none => exact Or.inl rfl
  | some nm =>
      right
      simp only [Option.getD_some]
      exact List.mem_map.mpr ⟨(code, nm), dictGet_mem _ _ _ hg, rfl⟩

theorem resolveName_sentinel (k : Option String)
    (h : resolveName k = some sentinel) : k = some sentinel := by
  cases k with
  | none => simp [resolveName] at h
  | some code =>
      simp only [resolveName, Option.some.injEq] at h
      rcases nameFor_mem_or_self code with hc | hc
      · rw [h] at hc
        rw [hc]
      · rw [h] at hc
        exact absurd hc (by decide)

theorem sentinel_notin_processItem (cat : String) (acc : FetchResult) (it : RawItem)
    (out : FetchResult) (hok : processItem cat acc it = .ok out)
    (h : (some sentinel) ∉ acc.map Prod.fst) : (some sentinel) ∉ out.map Prod.fst := by
  cases it with
  | nonObj =>
      simp only [processItem] at hok
      exact absurd hok (by simp)
  | badKey =>
      simp only [processItem] at hok
      exact absurd hok (by simp)
  | obj r =>
      simp only [processItem] at hok
      by_cases hs : r.klimaatsector = some sentinel
      · rw [if_pos hs] at hok
        injection hok with hok
        subst hok
        exact h
      · rw [if_neg hs] at hok
        injection hok with hok
        subst hok
        rw [dictSet_keys]
        by_cases hm : resolveName r.klimaatsector ∈ acc.map Prod.fst
        · rw [if_pos hm]; exact h
        · rw [if_neg hm]
          intro hcon
          rcases List.mem_append.mp hcon with hcon | hcon
          · exact h hcon
          · simp only [List.mem_singleton] at hcon
            exact hs (resolveName_sentinel _ hcon.symm)

theorem sentinel_notin_processItems (cat : String) (acc : FetchResult)
    (items : List RawItem) (out : FetchResult)
    (hok : processItems cat acc items = .ok out)
    (h : (some sentinel) ∉ acc.map Prod.fst) : (some sentinel) ∉ out.map Prod.fst := by
  induction items generalizing acc with
  | nil =>
      simp only [processItems] at hok
      injection hok with hok
      subst hok
      exact h
  | cons it rest ih =>
      simp only [processItems] at hok
      cases hmid : processItem cat acc it with
      | error e => rw [hmid] at hok; cases hok
      | ok mid =>
          rw [hmid] at hok
          exact ih mid hok (sentinel_notin_processItem cat acc it mid hmid h)

theorem sentinel_notin_fetchLoop (provider : Provider) (period : String)
    (acc : FetchResult) (cats : List (String × String)) (out : FetchResult)
    (hok : fetchLoop provider period acc cats = .ok out)
    (h : (some sentinel) ∉ acc.map Prod.fst) : (some sentinel) ∉ out.map Prod.fst := by
  induction cats generalizing acc with
  | nil =>
      simp only [fetchLoop] at hok
      injection hok with hok
      subst hok
      exact h
  | cons c rest ih =>
      obtain ⟨cn, ck⟩ := c
      simp only [fetchLoop] at hok
      cases hmid : processItems cn acc (respItems (provider period ck)) with
      | error e => rw [hmid] at hok; cases hok
      | ok mid =>
          rw [hmid] at hok
          exact ih mid hok (sentinel_notin_processItems _ _ _ _ hmid h)

/-! ### The spec-side description of the aggregation, and demo inputs -/

/-- The mean as §4.3 of the spec words it: the per-sector value (absent
entries defaulting to `0.0`) for every sector key present in the data,
averaged, with the empty mean defined as `0.0`. -/
def specAverage (data : SectorEmissions) (category : String) : ℚ :=
  if data.map Prod.fst = [] then 0
  else ((data.map Prod.fst).map fun s => dictGetD (dictGetD data s []) category 0).sum /
    (((data.map Prod.fst).length : ℚ))

/-- The worked example of §8 of the spec. -/
def demoData : SectorEmissions :=
  [("Industrie", [("total", 10), ("CO2", 6), ("other", 4)]),
   ("Mobiliteit", [("total", 4), ("CO2", 3), ("other", 1)])]

/-- Baselines for the worked example (`total` mean is `7.0`). -/
def demoAverages : List (String × ℚ) :=
  [("total", 7), ("CO2", 9/2), ("other", 5/2)]

/-! ### Claims -/

/-- Claim C5: for every sector code, resolution returns the canonical name
for each of the six catalog keys and the input itself for any other code;
it is a total function, so it can neither fail nor throw. -/
theorem claim_C5 (code : String) :
    (∀ nm, (code, nm) ∈ sectors → nameFor code = nm) ∧
    (code ∉ sectors.map Prod.fst → nameFor code = code) := by
  constructor
  · intro nm hmem
    have hnd : (sectors.map Prod.fst).Nodup := by decide
    rw [nameFor, dictGet_of_mem_nodup _ _ _ hnd hmem]
    rfl
  · intro hmem
    rw [nameFor, (dictGet_eq_none _ _).mpr hmem]
    rfl

theorem claim_C5_witness :
    nameFor "A050123" = "Industrie" ∧ nameFor "X999" = "X999" :=
  ⟨(claim_C5 "A050123").1 "Industrie" (by decide),
   (claim_C5 "X999").2 (by decide)⟩

/-- Claim C2: `compute_average` agrees with the spec description of the
mean (per-sector values over every sector key present, absent categories
read as `0.0`), and returns `0.0` on the empty mapping. -/
theorem claim_C2 (data : SectorEmissions) (category : String)
    (hnd : (data.map Prod.fst).Nodup) :
    compute_average data category = specAverage data category ∧
    compute_average ([] : SectorEmissions) category = 0 := by
  refine ⟨?_, rfl⟩
  by_cases hdata : data = []
  · subst hdata; rfl
  · have hmap : data.map (fun p => dictGetD p.2 category 0) =
        (data.map Prod.fst).map fun s => dictGetD (dictGetD data s []) category 0 := by
      rw [List.map_map]
      apply List.map_congr_left
      intro p hp
      have hk : dictGet data p.1 = some p.2 :=
        dictGet_of_mem_nodup _ _ _ hnd (by simpa using hp)
      have hD : dictGetD data p.1 [] = p.2 := by
        rw [dictGetD, hk]
        rfl
      simp only [Function.comp_apply]
      rw [hD]
    simp only [compute_average, specAverage]
    rw [if_neg (by simpa using hdata), if_neg (by simpa using hdata), hmap]
    simp [List.length_map]

theorem claim_C2_witness :
    compute_average demoData "total" = specAverage demoData "total" ∧
    compute_average ([] : SectorEmissions) "total" = 0 :=
  claim_C2 demoData "total" (by decide)

/-- Claim C8: over a non-empty mapping in which every sector reads the same
value `v` for a category, the average is exactly `v`. -/
theorem claim_C8 (data : SectorEmissions) (category : String) (v : ℚ)
    (hne : data ≠ [])
    (hv : ∀ p ∈ data, dictGetD p.2 category 0 = v) :
    compute_average data category = v := by
  have hmap : data.map (fun p => dictGetD p.2 category 0) =
      List.replicate data.length v := by
    rw [List.eq_replicate_iff]
    refine ⟨by simp, ?_⟩
    intro b hb
    simp only [List.mem_map] at hb
    obtain ⟨p, hp, hpb⟩ := hb
    rw [← hpb]
    exact hv p hp
  have hlen : data.length ≠ 0 := fun h => hne (List.length_eq_zero.mp h)
  simp only [compute_average]
  rw [hmap, if_neg (by simp [hlen]), List.sum_replicate, List.length_replicate,
    nsmul_eq_mul, mul_div_cancel_left₀ _ (Nat.cast_ne_zero.mpr hlen)]

theorem claim_C8_witness :
    compute_average [("Industrie", [("total", (5:ℚ))]), ("Landbouw", [("total", (5:ℚ))])]
      "total" = 5 :=
  claim_C8 _ "total" 5 (by decide) (by decide)

/-- Claim C10: when the averages mapping has no total entry,
`interpret_data` raises a KeyError exactly when some sector reads a total
strictly above the defaulted `0.0` baseline, and returns the empty mapping
when none does. -/
theorem claim_C10 (data : SectorEmissions) (averages : List (String × ℚ))
    (hmiss : dictGet averages "total" = none) :
    (interpret_data data averages = .error () ↔
      ∃ p ∈ data, dictGetD p.2 "total" 0 > 0) ∧
    ((∀ p ∈ data, ¬ dictGetD p.2 "total" 0 > 0) →
      interpret_data data averages = .ok []) :=
  interpretLoop_missing_total averages data [] hmiss

theorem claim_C10_witness :
    interpret_data [("Industrie", [("total", (1:ℚ))])] [("CO2", (3:ℚ))] = .error () :=
  (claim_C10 [("Industrie", [("total", (1:ℚ))])] [("CO2", (3:ℚ))] (by decide)).1.mpr
    (by decide)

/-- Claim C3: the keys of the recommendations are exactly (in data order)
the sectors whose total value (default `0.0`) strictly exceeds the total
baseline; and whenever the averages mapping has a total entry the function
does return a mapping. -/
theorem claim_C3 (data : SectorEmissions) (averages : List (String × ℚ))
    (hnd : (data.map Prod.fst).Nodup) :
    (∀ acts, interpret_data data averages = .ok acts →
      acts.map Prod.fst = (data.filter fun p =>
        decide (dictGetD p.2 "total" 0 > dictGetD averages "total" 0)).map Prod.fst) ∧
    (∀ b, dictGet averages "total" = some b →
      ∃ acts, interpret_data data averages = .ok acts) := by
  constructor
  · intro acts hok
    exact interpretLoop_keys averages data [] acts hnd (by simp) hok
  · intro b hb
    exact interpretLoop_ok averages data [] b hb

theorem claim_C3_witness :
    [("Industrie", actionText "Industrie" 10 7)].map Prod.fst =
      (demoData.filter fun p =>
        decide (dictGetD p.2 "total" 0 > dictGetD demoAverages "total" 0)).map Prod.fst :=
  (claim_C3 demoData demoAverages (by decide)).1
    [("Industrie", actionText "Industrie" 10 7)] rfl

/-- Claim C7: every produced entry is the fixed Dutch sentence embedding,
in order, the sector name, the sector total to one decimal, the total
baseline to one decimal, and the fixed enforcement phrase; sectors at or
below the baseline have no entry at all. -/
theorem claim_C7 (data : SectorEmissions) (averages : List (String × ℚ))
    (acts : List (String × String))
    (hnd : (data.map Prod.fst).Nodup)
    (hok : interpret_data data averages = .ok acts) :
    (∀ sector msg, (sector, msg) ∈ acts → ∃ b, dictGet averages "total" = some b ∧
      msg = "De sector " ++ sector ++ " stoot "
        ++ pyFormat1 (dictGetD (dictGetD data sector []) "total" 0)
        ++ " Mt CO₂-equivalent uit, wat boven "
        ++ "het gemiddelde van " ++ pyFormat1 b
        ++ " Mt ligt. Controleer grote                 installaties en voer aanvullende reductiemaatregelen uit.") ∧
    (∀ p ∈ data, dictGetD p.2 "total" 0 ≤ dictGetD averages "total" 0 →
      dictGet acts p.1 = none) := by
  constructor
  · intro sector msg hm
    rcases interpretLoop_mem averages data [] acts hok sector msg hm with
      h | ⟨vals, b, hmemd, hb, hq, hmsg⟩
    · simp at h
    · refine ⟨b, hb, ?_⟩
      have h1 : dictGetD data sector [] = vals := by
        rw [dictGetD, dictGet_of_mem_nodup _ _ _ hnd hmemd]
        rfl
      rw [h1, hmsg]
      rfl
  · intro p hp hle
    cases hga : dictGet acts p.1 with
    | none => rfl
    | some m =>
        have hmem := dictGet_mem _ _ _ hga
        rcases interpretLoop_mem averages data [] acts hok p.1 m hmem with
          h | ⟨vals, b, hmemd, hb, hq, hmsg⟩
        · simp at h
        · have h1 : dictGet data p.1 = some p.2 :=
            dictGet_of_mem_nodup _ _ _ hnd (by simpa using hp)
          have h2 : dictGet data p.1 = some vals :=
            dictGet_of_mem_nodup _ _ _ hnd hmemd
          rw [h1] at h2
          injection h2 with h2
          subst h2
          exact absurd hq (not_lt.mpr hle)

theorem claim_C7_witness :
    ∃ b, dictGet demoAverages "total" = some b ∧
      actionText "Industrie" 10 7 = "De sector " ++ "Industrie" ++ " stoot "
        ++ pyFormat1 (dictGetD (dictGetD demoData "Industrie" []) "total" 0)
        ++ " Mt CO₂-equivalent uit, wat boven "
        ++ "het gemiddelde van " ++ pyFormat1 b
        ++ " Mt ligt. Controleer grote                 installaties en voer aanvullende reductiemaatregelen uit." :=
  (claim_C7 demoData demoAverages [("Industrie", actionText "Industrie" 10 7)]
    (by decide) rfl).1 "Industrie" (actionText "Industrie" 10 7)
    (List.mem_cons_self _ _)

/-- Claim C9: the `0.0` default applies only to a record with no value
field; a null value field is stored unchanged as the JSON null, so the
returned mapping can hold a non-numeric entry (third conjunct exhibits a
full run in which it does). -/
theorem claim_C9 (acc : FetchResult) (rcd : SrcRecord) (cat : String)
    (out : FetchResult)
    (hs : rcd.klimaatsector ≠ some sentinel)
    (hok : processItem cat acc (RawItem.obj rcd) = .ok out) :
    (rcd.emissie = some JVal.null →
      cell out (resolveName rcd.klimaatsector) cat = some JVal.null) ∧
    (rcd.emissie = none →
      cell out (resolveName rcd.klimaatsector) cat = some (JVal.num 0)) ∧
    (∃ provider r2, get_emission_data provider "2023JJ00" = .ok r2 ∧
      cell r2 (some "Industrie") "total" = some JVal.null) := by
  have ht : touches (RawItem.obj rcd) (resolveName rcd.klimaatsector) = true := by
    simp [touches, hs]
  have hcell := (cell_processItem cat acc (RawItem.obj rcd) out hok
    (resolveName rcd.klimaatsector)).1 ht
  refine ⟨?_, ?_, ?_⟩
  · intro hnull
    rw [hcell, recVal, hnull]
    rfl
  · intro hnone
    rw [hcell, recVal, hnone]
    rfl
  · refine ⟨fun _ ck => if ck = "T001372"
        then Response.ok [RawItem.obj ⟨some "A050123", some JVal.null⟩]
        else Response.failure,
      [(some "Industrie", [("total", JVal.null)])], rfl, rfl⟩

theorem claim_C9_witness :
    cell [(some "Industrie", [("total", JVal.null)])] (some "Industrie") "total"
      = some JVal.null :=
  (claim_C9 [] ⟨some "A050123", some JVal.null⟩ "total"
    [(some "Industrie", [("total", JVal.null)])] (by decide) rfl).1 rfl

/-- Claim C6: a record carrying the rollup sentinel code is discarded: the
loop body returns its accumulator unchanged on such a record, and the
sentinel never appears as a key of any returned mapping. -/
theorem claim_C6 (provider : Provider) (period : String) (r : FetchResult)
    (hok : get_emission_data provider period = .ok r) :
    (some sentinel) ∉ r.map Prod.fst ∧
    (∀ cat acc rcd, rcd.klimaatsector = some sentinel →
      processItem cat acc (RawItem.obj rcd) = .ok acc) := by
  constructor
  · exact sentinel_notin_fetchLoop provider period [] categories r hok (by simp)
  · intro cat acc rcd hs
    simp only [processItem, if_pos hs]

theorem claim_C6_witness :
    (some sentinel) ∉ ([] : FetchResult).map Prod.fst ∧
    (∀ cat acc rcd, rcd.klimaatsector = some sentinel →
      processItem cat acc (RawItem.obj rcd) = .ok acc) :=
  claim_C6 (fun _ _ => Response.ok [RawItem.obj ⟨some sentinel, some (JVal.num 5)⟩])
    "2023JJ00" [] rfl

/-- Claim C4: within one call, the value stored for a sector and category is
the value of the last provider record for that pair (last write wins), and
every sector row of the result has at most one value per category. -/
theorem claim_C4 (provider : Provider) (period : String) (r : FetchResult)
    (catName catKey : String) (items : List RawItem) (name : SKey) (v : JVal)
    (hok : get_emission_data provider period = .ok r)
    (hcat : (catName, catKey) ∈ categories)
    (hresp : provider period catKey = Response.ok items)
    (hlast : lastWrite name items = some v) :
    cell r name catName = some v ∧ nodupKeys r := by
  have hnodup : nodupKeys r :=
    nodupKeys_fetchLoop provider period [] categories r hok ⟨by simp, by simp⟩
  refine ⟨?_, hnodup⟩
  cases h1 : processItems "total" [] (respItems (provider period "T001372")) with
  | error e =>
      have hred : get_emission_data provider period = Except.error e := by
        simp only [get_emission_data, categories, fetchLoop, h1]
      rw [hred] at hok
      cases hok
  | ok r1 =>
      cases h2 : processItems "CO2" r1 (respItems (provider period "A044109")) with
      | error e =>
          have hred : get_emission_data provider period = Except.error e := by
            simp only [get_emission_data, categories, fetchLoop, h1, h2]
          rw [hred] at hok
          cases hok
      | ok r2 =>
          cases h3 : processItems "other" r2 (respItems (provider period "A050122")) with
          | error e =>
              have hred : get_emission_data provider period = Except.error e := by
                simp only [get_emission_data, categories, fetchLoop, h1, h2, h3]
              rw [hred] at hok
              cases hok
          | ok r3 =>
              have hred : get_emission_data provider period = Except.ok r3 := by
                simp only [get_emission_data, categories, fetchLoop, h1, h2, h3]
              rw [hred] at hok
              injection hok with hok
              subst hok
              simp only [categories, List.mem_cons, List.not_mem_nil, or_false,
                Prod.mk.injEq, List.mem_singleton] at hcat
              rcases hcat with ⟨hn, hk⟩ | ⟨hn, hk⟩ | ⟨hn, hk⟩
              · subst hn; subst hk
                rw [hresp] at h1
                replace h1 : processItems "total" [] items = .ok r1 := h1
                rw [cell_processItems_other "other" r2 _ _ h3 name "total"
                      (by decide),
                    cell_processItems_other "CO2" r1 _ _ h2 name "total"
                      (by decide),
                    cell_processItems "total" [] items r1 h1 name, hlast]
              · subst hn; subst hk
                rw [hresp] at h2
                replace h2 : processItems "CO2" r1 items = .ok r2 := h2
                rw [cell_processItems_other "other" r2 _ _ h3 name "CO2"
                      (by decide),
                    cell_processItems "CO2" r1 items r2 h2 name, hlast]
              · subst hn; subst hk
                rw [hresp] at h3
                replace h3 : processItems "other" r2 items = .ok r3 := h3
                rw [cell_processItems "other" r2 items r3 h3 name, hlast]

theorem claim_C4_witness :
    cell [(some "Industrie", [("total", JVal.num 2)])] (some "Industrie") "total"
        = some (JVal.num 2) ∧
    nodupKeys [(some "Industrie", [("total", JVal.num 2)])] :=
  claim_C4
    (fun _ ck => if ck = "T001372"
      then Response.ok [RawItem.obj ⟨some "A050123", some (JVal.num 1)⟩,
        RawItem.obj ⟨some "A050123", some (JVal.num 2)⟩]
      else Response.failure)
    "2023JJ00" [(some "Industrie", [("total", JVal.num 2)])]
    "total" "T001372"
    [RawItem.obj ⟨some "A050123", some (JVal.num 1)⟩,
     RawItem.obj ⟨some "A050123", some (JVal.num 2)⟩]
    (some "Industrie") (JVal.num 2)
    rfl (by decide) rfl (by decide)

/-- Claim C1 (amended): over provider behaviours whose every per-category
response either fails inside the guarded block (unreachable, non-2xx,
always-throwing, undecodable body) or decodes to a list of JSON objects
with well-typed fields (sector code absent, null or a string),
`get_emission_data` always returns a mapping, and its result depends only
on the record list each response decodes to, so a failed category behaves
exactly like one contributing no records while the other categories are
still reflected.  Two malformed-payload shapes are NOT recovered, because
they raise outside the guarded block: a non-object item in the decoded
value list, and an object whose sector code is an unhashable JSON array or
object; see the counterexample for both. -/
theorem claim_C1 (provider : Provider) (period : String)
    (hgood : ∀ c ∈ categories, goodResponse (provider period c.2)) :
    (∃ r, get_emission_data provider period = .ok r) ∧
    (∀ provider2 : Provider,
      (∀ c ∈ categories, respItems (provider2 period c.2) = respItems (provider period c.2)) →
      get_emission_data provider2 period = get_emission_data provider period) := by
  constructor
  · exact fetchLoop_ok_of_good provider period [] categories hgood
  · intro p2 h
    exact fetchLoop_respItems_congr p2 provider period [] categories h

theorem claim_C1_witness :
    ∃ r, get_emission_data (fun _ _ => Response.failure) "2023JJ00" = .ok r :=
  (claim_C1 (fun _ _ => Response.failure) "2023JJ00"
    (fun _ _ => trivial)).1

/-- Claim C1, counterexample to the frozen wording: a provider returning the
malformed payload whose decoded value list is `[nonObj]` (for example the
JSON body with value list `[42]`) makes `get_emission_data` raise
(`AttributeError` at `item.get`, outside the guarded block), and so does a
payload whose value list holds an object with an unhashable sector code
(for example `[{Klimaatsector: [x]}]`, `TypeError` at `sectors.get`, also
outside the guarded block); so it is not true that every malformed payload
is recovered. -/
theorem claim_C1_counterexample :
    get_emission_data (fun _ _ => Response.ok [RawItem.nonObj]) "2023JJ00"
        = .error () ∧
    get_emission_data (fun _ _ => Response.ok [RawItem.badKey]) "2023JJ00"
        = .error () ∧
    ¬ ∃ r, get_emission_data (fun _ _ => Response.ok [RawItem.nonObj]) "2023JJ00"
        = .ok r := by
  refine ⟨rfl, rfl, ?_⟩
  rintro ⟨r, hr⟩
  have h2 : (Except.error () : Except Unit FetchResult) = Except.ok r := hr
  cases h2

end EmissionsApp
